import Mathlib

/-!
Verification of the event-study core of the crypto-event-study repository.

The embedding models pandas series as association lists from integer hour
timestamps to optional values: `none` models a missing observation (NaN),
`some v` a present float value.  Floats are modelled as elements of a
linear ordered field (`ℚ` for executable witnesses, `ℝ` where the natural
logarithm of `data.to_returns` enters the pipeline).  Timestamps are whole
hours since an arbitrary epoch, matching the hourly bar granularity of the
price data.
-/

namespace ES

/-- A pandas series: ordered list of (timestamp, value) rows, `none` = NaN. -/
abbrev Series (K : Type) : Type := List (ℤ × Option K)

/-- Value of a series at a timestamp: `none` both when the row is absent and
when the row is present with a NaN value, matching how pandas `reindex`
treats either case. -/
def lookupS {K : Type} (s : Series K) (t : ℤ) : Option K :=
  match s.find? (fun p => p.1 == t) with
  | some p => p.2
  | none => none

/-- The inclusive hourly range `a, a+1, ..., b` (empty when `b < a`),
modelling `pd.date_range(a, b, freq="h")`. -/
def hrange (a b : ℤ) : List ℤ :=
  (List.range (b + 1 - a).toNat).map (fun (k : ℕ) => a + (k : ℤ))

/-- `s.reindex(idx)`: one row per requested timestamp, `none` where the
source has no (non-NaN) value. -/
def reindex {K : Type} (s : Series K) (idx : List ℤ) : Series K :=
  idx.map (fun t => (t, lookupS s t))

/-- `s.asfreq("h")`: align onto the hourly grid spanning the series'
first to last timestamp. -/
def asfreq {K : Type} (s : Series K) : Series K :=
  match s with
  | [] => []
  | p :: rest => reindex (p :: rest) (hrange p.1 (((p :: rest).getLast (List.cons_ne_nil p rest)).1))

/-- `_slice_window` of `core/event_study.py`: align to hourly frequency and
reindex onto the exact relative-hour window around the anchor `t0`. -/
def slice_window {K : Type} (s : Series K) (t0 : ℤ) (window : ℤ × ℤ) : Series K :=
  reindex (asfreq s) (hrange (t0 + window.1) (t0 + window.2))

theorem length_hrange (a b : ℤ) : (hrange a b).length = (b + 1 - a).toNat := by
  rw [hrange, List.length_map, List.length_range]

theorem mem_hrange {a b t : ℤ} : t ∈ hrange a b ↔ a ≤ t ∧ t ≤ b := by
  rw [hrange, List.mem_map]
  constructor
  · rintro ⟨k, hk, rfl⟩
    rw [List.mem_range] at hk
    omega
  · rintro ⟨h1, h2⟩
    exact ⟨(t - a).toNat, List.mem_range.mpr (by omega), by omega⟩

theorem lookupS_cons {K : Type} (p : ℤ × Option K) (s : Series K) (t : ℤ) :
    lookupS (p :: s) t = if p.1 = t then p.2 else lookupS s t := by
  by_cases h : p.1 = t
  · rw [lookupS, List.find?_cons_of_pos _ (by simpa using h), if_pos h]
  · rw [lookupS, List.find?_cons_of_neg _ (by simpa using h), if_neg h]
    rfl

theorem lookupS_reindex {K : Type} (s : Series K) (idx : List ℤ) (t : ℤ) :
    lookupS (reindex s idx) t = if t ∈ idx then lookupS s t else none := by
  induction idx with
  | nil => simp [reindex, lookupS]
  | cons a rest ih =>
    rw [reindex, List.map_cons, lookupS_cons]
    by_cases h : a = t
    · subst h
      simp
    · rw [if_neg h, show (rest.map (fun u => (u, lookupS s u))) = reindex s rest from rfl, ih]
      by_cases ht : t ∈ rest
      · simp [ht, List.mem_cons]
      · simp [ht, List.mem_cons, Ne.symm h]

theorem lookupS_asfreq_none {K : Type} (s : Series K) (t : ℤ) (h : lookupS s t = none) :
    lookupS (asfreq s) t = none := by
  cases s with
  | nil => simp [asfreq, lookupS]
  | cons p rest =>
    rw [asfreq, lookupS_reindex]
    split <;> simp [h]

/-- C1 — the window slicer returns exactly `end - start + 1` hourly rows,
whose timestamps are exactly the hours `t0+start .. t0+end`, and every hour
at which the input series has no observation is present as a missing
marker (`none`), never omitted. -/
theorem slice_window_length_spec {K : Type} (s : Series K) (t0 a b : ℤ) (h : a ≤ b) :
    (slice_window s t0 (a, b)).length = (b - a + 1).toNat ∧
    (slice_window s t0 (a, b)).map Prod.fst = hrange (t0 + a) (t0 + b) ∧
    (∀ t ∈ hrange (t0 + a) (t0 + b), lookupS s t = none →
      (t, (none : Option K)) ∈ slice_window s t0 (a, b)) := by
  refine ⟨?_, ?_, ?_⟩
  · simp only [slice_window, reindex, List.length_map, length_hrange]
    omega
  · simp [slice_window, reindex, List.map_map, Function.comp_def]
  · intro t ht hnone
    have hv : lookupS (asfreq s) t = none := lookupS_asfreq_none s t hnone
    simp only [slice_window, reindex]
    refine List.mem_map.mpr ⟨t, ht, ?_⟩
    rw [hv]

/-- Witness for C1 on a sparse concrete series: hours 5 and 8 present,
window (-2, 1) around t0 = 7 gives 4 rows, with hours 6, 7 missing-marked. -/
theorem slice_window_length_spec_witness :
    ((-2 : ℤ) ≤ 1) ∧
    ((slice_window ([(5, some (1 : ℚ)), (8, some 2)] : Series ℚ) 7 (-2, 1)).length = ((1 : ℤ) - (-2) + 1).toNat ∧
    (slice_window ([(5, some (1 : ℚ)), (8, some 2)] : Series ℚ) 7 (-2, 1)).map Prod.fst = hrange (7 + (-2)) (7 + 1) ∧
    (∀ t ∈ hrange (7 + (-2)) (7 + 1), lookupS ([(5, some (1 : ℚ)), (8, some 2)] : Series ℚ) t = none →
      (t, (none : Option ℚ)) ∈ slice_window ([(5, some (1 : ℚ)), (8, some 2)] : Series ℚ) 7 (-2, 1))) :=
  ⟨by with_unfolding_all decide, slice_window_length_spec ([(5, some (1 : ℚ)), (8, some 2)] : Series ℚ) 7 (-2) 1 (by with_unfolding_all decide)⟩

/-- `s.dropna()`: remove rows whose value is missing. -/
def dropnaS {K : Type} (s : Series K) : Series K :=
  s.filter (fun p => p.2.isSome)

/-- The list of non-missing values of a series, in order. -/
def definedVals {K : Type} (s : Series K) : List K :=
  s.filterMap (fun p => p.2)

theorem definedVals_dropnaS {K : Type} (s : Series K) :
    definedVals (dropnaS s) = definedVals s := by
  induction s with
  | nil => rfl
  | cons p rest ih =>
    cases hp : p.2 with
    | none => simpa [dropnaS, definedVals, List.filter_cons, List.filterMap_cons, hp] using ih
    | some v => simpa [dropnaS, definedVals, List.filter_cons, List.filterMap_cons, hp] using ih

theorem length_dropnaS {K : Type} (s : Series K) :
    (dropnaS s).length = (definedVals s).length := by
  induction s with
  | nil => rfl
  | cons p rest ih =>
    cases hp : p.2 with
    | none => simpa [dropnaS, definedVals, List.filter_cons, List.filterMap_cons, hp] using ih
    | some v => simpa [dropnaS, definedVals, List.filter_cons, List.filterMap_cons, hp] using ih

/-- The event-study model configuration (`ModelCfg` of `core/event_study.py`).
A `none` or empty benchmark name is falsy in the python condition guarding
the market model. -/
structure ModelCfg where
  benchmark : Option String := some "BTC-USD"
  use_bootstrap : Bool := true
  n_boot : ℕ := 1000

/-- Estimation and event windows in hours relative to the event time. -/
structure Windows where
  estimation : ℤ × ℤ := (-240, -24)
  event : ℤ × ℤ := (-24, 24)

section Field

variable {K : Type} [LinearOrderedField K]

/-- `s.mean()` over the non-missing values (pandas `skipna` mean). -/
def meanDefined (s : Series K) : K :=
  (definedVals s).sum / (definedVals s).length

/-- `s - c`: elementwise subtraction of a scalar, missing rows stay missing. -/
def subScalar (s : Series K) (c : K) : Series K :=
  s.map (fun p => (p.1, p.2.map (fun v => v - c)))

/-- `a + b * s`: the fitted series of the market model, missing stays missing. -/
def affineScalar (a b : K) (s : Series K) : Series K :=
  s.map (fun p => (p.1, p.2.map (fun v => a + b * v)))

/-- Index union of two series in pandas outer-join order (left index first). -/
def idxUnion (x y : Series K) : List ℤ :=
  x.map Prod.fst ++ (y.map Prod.fst).filter (fun t => !((x.map Prod.fst).contains t))

/-- `x - y` with index alignment: a value is present only where both series
have a non-missing value at the shared timestamp. -/
def seriesSub (x y : Series K) : Series K :=
  (idxUnion x y).map (fun t => (t, (lookupS x t).bind (fun a => (lookupS y t).map (fun b => a - b))))

/-- `pd.concat([x, y], axis=1).dropna()`: the aligned pairs of values present
and non-missing in both series. -/
def alignDropna (x y : Series K) : List (K × K) :=
  (idxUnion x y).filterMap (fun t => (lookupS x t).bind (fun a => (lookupS y t).map (fun b => (a, b))))

/-- `np.linalg.lstsq` for the two-column design `[1, x]`: the least-squares
solution of `y = alpha + beta * x`; on a rank-deficient design (all x equal)
the minimum-norm least-squares solution, as LAPACK returns. -/
def lstsq2 (pts : List (K × K)) : K × K :=
  let n : K := (pts.length : K)
  let Sx := (pts.map Prod.fst).sum
  let Sy := (pts.map Prod.snd).sum
  let Sxx := (pts.map (fun p => p.1 * p.1)).sum
  let Sxy := (pts.map (fun p => p.1 * p.2)).sum
  let d := n * Sxx - Sx * Sx
  if d = 0 then
    let c := Sx / n
    let yb := Sy / n
    (yb / (1 + c * c), yb * c / (1 + c * c))
  else
    let b := (n * Sxy - Sx * Sy) / d
    ((Sy - b * Sx) / n, b)

/-- `ols_alpha_beta` of `core/stats.py`: align the two series on their shared
index, drop rows with a missing value in either, return (0, 0) when fewer
than 10 paired observations remain, else the least-squares fit. -/
def ols_alpha_beta (x y : Series K) : K × K :=
  if (alignDropna x y).length < 10 then (0, 0) else lstsq2 (alignDropna x y)

/-- Pandas `Series.cumsum()` (default `skipna=True`): missing rows stay
missing, non-missing rows receive the running sum of the non-missing
values seen so far. -/
def cumsumGo (acc : K) : List (ℤ × Option K) → List (ℤ × Option K)
  | [] => []
  | (t, none) :: rest => (t, none) :: cumsumGo acc rest
  | (t, some v) :: rest => (t, some (acc + v)) :: cumsumGo (acc + v) rest

def cumsum (s : Series K) : Series K := cumsumGo 0 s

/-- `_market_model_ar` of `core/event_study.py`: abnormal returns over the
event window, via the mean-adjusted model when no benchmark series is given,
else via the OLS market model fitted over the estimation window. -/
def market_model_ar (target_rets : Series K) (bench_rets : Option (Series K))
    (t0 : ℤ) (w : Windows) : Series K × K × K :=
  let est := dropnaS (slice_window target_rets t0 w.estimation)
  match bench_rets with
  | none =>
    let mu := if 0 < est.length then meanDefined est else 0
    (subScalar (slice_window target_rets t0 w.event) mu, mu, 0)
  | some br =>
    let est_b := slice_window br t0 w.estimation
    let ab := ols_alpha_beta est_b est
    let ev_t := slice_window target_rets t0 w.event
    let ev_b := slice_window br t0 w.event
    (seriesSub ev_t (affineScalar ab.1 ab.2 ev_b), ab.1, ab.2)

theorem length_cumsumGo (acc : K) (s : List (ℤ × Option K)) :
    (cumsumGo acc s).length = s.length := by
  induction s generalizing acc with
  | nil => rfl
  | cons p rest ih =>
    cases p with
    | mk t v => cases v <;> simp [cumsumGo, ih]

theorem cumsumGo_getD (s : List (ℤ × Option K)) :
    ∀ (acc : K) (i : ℕ), i < s.length →
    (cumsumGo acc s).getD i (0, none) =
      ((s.getD i (0, none)).1,
       (s.getD i (0, none)).2.map (fun _ => acc + (definedVals (s.take (i + 1))).sum)) := by
  induction s with
  | nil =>
    intro acc i h
    simp at h
  | cons p rest ih =>
    intro acc i h
    cases p with
    | mk t v =>
      cases v with
      | none =>
        cases i with
        | zero => simp [cumsumGo]
        | succ j =>
          have hj : j < rest.length := by simpa using h
          simp only [cumsumGo, List.getD_cons_succ, List.take_succ_cons]
          rw [ih acc j hj]
          simp [definedVals, List.filterMap_cons]
      | some v =>
        cases i with
        | zero => simp [cumsumGo, definedVals, List.filterMap_cons]
        | succ j =>
          have hj : j < rest.length := by simpa using h
          simp only [cumsumGo, List.getD_cons_succ, List.take_succ_cons]
          rw [ih (acc + v) j hj]
          simp [definedVals, List.filterMap_cons, add_assoc]

theorem cumsum_getD (s : Series K) (i : ℕ) (h : i < s.length) :
    (cumsum s).getD i (0, none) =
      ((s.getD i (0, none)).1,
       (s.getD i (0, none)).2.map (fun _ => (definedVals (s.take (i + 1))).sum)) := by
  rw [cumsum, cumsumGo_getD s 0 i h]
  simp

end Field

section OLS

variable {K : Type} [LinearOrderedField K]

/-- The sum of squared residuals of the line `y = a + b * x` over paired
observations: the objective that ordinary least squares minimises. -/
def olsLoss (pts : List (K × K)) (a b : K) : K :=
  (pts.map (fun p => (p.2 - (a + b * p.1)) ^ 2)).sum

theorem olsLoss_cons (p : K × K) (pts : List (K × K)) (a b : K) :
    olsLoss (p :: pts) a b = (p.2 - (a + b * p.1)) ^ 2 + olsLoss pts a b := by
  simp [olsLoss]

theorem sum_resid (pts : List (K × K)) (a b : K) :
    (pts.map (fun p => p.2 - (a + b * p.1))).sum =
      (pts.map Prod.snd).sum - (pts.length : K) * a - b * (pts.map Prod.fst).sum := by
  induction pts with
  | nil => simp
  | cons p rest ih =>
    simp only [List.map_cons, List.sum_cons, List.length_cons, Nat.cast_succ]
    rw [ih]
    ring

theorem sum_residx (pts : List (K × K)) (a b : K) :
    (pts.map (fun p => (p.2 - (a + b * p.1)) * p.1)).sum =
      (pts.map (fun p => p.1 * p.2)).sum - a * (pts.map Prod.fst).sum -
        b * (pts.map (fun p => p.1 * p.1)).sum := by
  induction pts with
  | nil => simp
  | cons p rest ih =>
    simp only [List.map_cons, List.sum_cons]
    rw [ih]
    ring

theorem olsLoss_decomp (pts : List (K × K)) (a b c d : K) :
    olsLoss pts a b = olsLoss pts c d
      + 2 * (c - a) * (pts.map (fun p => p.2 - (c + d * p.1))).sum
      + 2 * (d - b) * (pts.map (fun p => (p.2 - (c + d * p.1)) * p.1)).sum
      + (pts.map (fun p => ((c - a) + (d - b) * p.1) ^ 2)).sum := by
  induction pts with
  | nil => simp [olsLoss]
  | cons p rest ih =>
    simp only [olsLoss_cons, List.map_cons, List.sum_cons]
    linear_combination ih

theorem sum_map_sq_nonneg (pts : List (K × K)) (g : K × K → K) :
    0 ≤ (pts.map (fun p => g p ^ 2)).sum := by
  refine List.sum_nonneg ?_
  intro v hv
  rcases List.mem_map.mp hv with ⟨z, _, rfl⟩
  exact sq_nonneg (g z)

theorem sum_sq_eq_zero : ∀ (l : List K), (l.map (fun v => v ^ 2)).sum = 0 → ∀ v ∈ l, v = 0 := by
  intro l
  induction l with
  | nil => simp
  | cons h t ih =>
    intro hs v hv
    have h2 : 0 ≤ (t.map (fun v => v ^ 2)).sum := by
      refine List.sum_nonneg ?_
      intro w hw
      rcases List.mem_map.mp hw with ⟨z, _, rfl⟩
      exact sq_nonneg z
    have h1 : (0 : K) ≤ h ^ 2 := sq_nonneg h
    simp only [List.map_cons, List.sum_cons] at hs
    rcases List.mem_cons.mp hv with rfl | hv'
    · have : v ^ 2 = 0 := by nlinarith
      exact pow_eq_zero_iff (two_ne_zero) |>.mp this
    · exact ih (by nlinarith) v hv'

theorem sum_sq_x_shift (pts : List (K × K)) (m : K) :
    (pts.map (fun p => (p.1 - m) ^ 2)).sum =
      (pts.map (fun p => p.1 * p.1)).sum - 2 * m * (pts.map Prod.fst).sum +
        (pts.length : K) * m ^ 2 := by
  induction pts with
  | nil => simp
  | cons p rest ih =>
    simp only [List.map_cons, List.sum_cons, List.length_cons, Nat.cast_succ]
    rw [ih]
    ring

theorem sum_fst_all_eq (pts : List (K × K)) (c : K) (h : ∀ p ∈ pts, p.1 = c) :
    (pts.map Prod.fst).sum = (pts.length : K) * c := by
  induction pts with
  | nil => simp
  | cons p rest ih =>
    simp only [List.map_cons, List.sum_cons, List.length_cons, Nat.cast_succ]
    rw [h p (List.mem_cons_self p rest), ih (fun q hq => h q (List.mem_cons_of_mem p hq))]
    ring

theorem sum_xx_all_eq (pts : List (K × K)) (c : K) (h : ∀ p ∈ pts, p.1 = c) :
    (pts.map (fun p => p.1 * p.1)).sum = (pts.length : K) * (c * c) := by
  induction pts with
  | nil => simp
  | cons p rest ih =>
    simp only [List.map_cons, List.sum_cons, List.length_cons, Nat.cast_succ]
    rw [h p (List.mem_cons_self p rest), ih (fun q hq => h q (List.mem_cons_of_mem p hq))]
    ring

theorem sum_xy_all_eq (pts : List (K × K)) (c : K) (h : ∀ p ∈ pts, p.1 = c) :
    (pts.map (fun p => p.1 * p.2)).sum = c * (pts.map Prod.snd).sum := by
  induction pts with
  | nil => simp
  | cons p rest ih =>
    simp only [List.map_cons, List.sum_cons]
    rw [h p (List.mem_cons_self p rest), ih (fun q hq => h q (List.mem_cons_of_mem p hq))]
    ring

/-- On a rank-deficient design (the degenerate branch of `lstsq2`), every
x-value equals the mean of the x-values. -/
theorem all_x_eq_of_deficient (pts : List (K × K)) (hn : 0 < pts.length)
    (hd : (pts.length : K) * (pts.map (fun p => p.1 * p.1)).sum -
      (pts.map Prod.fst).sum * (pts.map Prod.fst).sum = 0) :
    ∀ p ∈ pts, p.1 = (pts.map Prod.fst).sum / (pts.length : K) := by
  have hn0 : (0 : K) < (pts.length : K) := by exact_mod_cast hn
  have hne : ((pts.length : K)) ≠ 0 := ne_of_gt hn0
  have hshift : (pts.map (fun p => p.1 * p.1)).sum -
      2 * ((pts.map Prod.fst).sum / (pts.length : K)) * (pts.map Prod.fst).sum +
      (pts.length : K) * ((pts.map Prod.fst).sum / (pts.length : K)) ^ 2 =
      ((pts.length : K) * (pts.map (fun p => p.1 * p.1)).sum -
        (pts.map Prod.fst).sum * (pts.map Prod.fst).sum) / (pts.length : K) := by
    field_simp
    ring
  have hkey : (pts.map (fun p => (p.1 - (pts.map Prod.fst).sum / (pts.length : K)) ^ 2)).sum = 0 := by
    rw [sum_sq_x_shift, hshift, hd, zero_div]
  intro p hp
  have hmem : (p.1 - (pts.map Prod.fst).sum / (pts.length : K)) ∈
      pts.map (fun q => q.1 - (pts.map Prod.fst).sum / (pts.length : K)) :=
    List.mem_map.mpr ⟨p, hp, rfl⟩
  have := sum_sq_eq_zero (pts.map (fun q => q.1 - (pts.map Prod.fst).sum / (pts.length : K)))
    (by rw [List.map_map]; exact hkey) _ hmem
  linarith [this]

theorem deg_norm1 (n Sx Sy α β : K) (hne : n ≠ 0)
    (hα : α = Sy / n / (1 + Sx / n * (Sx / n)))
    (hβ : β = Sy / n * (Sx / n) / (1 + Sx / n * (Sx / n))) :
    Sy - n * α - β * Sx = 0 := by
  have h3 : (0 : K) < n * n + Sx * Sx := by
    have h4 : 0 < n * n := mul_self_pos.mpr hne
    nlinarith [mul_self_nonneg Sx]
  have h5 : (1 : K) + Sx / n * (Sx / n) ≠ 0 := by
    have : (1 : K) + Sx / n * (Sx / n) = (n * n + Sx * Sx) / (n * n) := by
      field_simp
    rw [this]
    exact div_ne_zero (ne_of_gt h3) (mul_ne_zero hne hne)
  subst hα hβ
  field_simp
  ring

theorem deg_norm2 (n Sx Sy Sxy Sxx α β : K) (hne : n ≠ 0)
    (hα : α = Sy / n / (1 + Sx / n * (Sx / n)))
    (hβ : β = Sy / n * (Sx / n) / (1 + Sx / n * (Sx / n)))
    (hxy : Sxy = Sx / n * Sy) (hxx : Sxx = n * (Sx / n * (Sx / n))) :
    Sxy - α * Sx - β * Sxx = 0 := by
  have h3 : (0 : K) < n * n + Sx * Sx := by
    have h4 : 0 < n * n := mul_self_pos.mpr hne
    nlinarith [mul_self_nonneg Sx]
  have h5 : (1 : K) + Sx / n * (Sx / n) ≠ 0 := by
    have : (1 : K) + Sx / n * (Sx / n) = (n * n + Sx * Sx) / (n * n) := by
      field_simp
    rw [this]
    exact div_ne_zero (ne_of_gt h3) (mul_ne_zero hne hne)
  subst hα hβ hxy hxx
  field_simp
  ring

theorem ndeg_norm1 (n Sx Sy Sxy Sxx α β : K) (hne : n ≠ 0)
    (_hβ : β = (n * Sxy - Sx * Sy) / (n * Sxx - Sx * Sx))
    (hα : α = (Sy - β * Sx) / n) :
    Sy - n * α - β * Sx = 0 := by
  subst hα
  field_simp

theorem ndeg_norm2 (n Sx Sy Sxy Sxx α β : K) (hne : n ≠ 0)
    (hd : n * Sxx - Sx * Sx ≠ 0)
    (hβ : β = (n * Sxy - Sx * Sy) / (n * Sxx - Sx * Sx))
    (hα : α = (Sy - β * Sx) / n) :
    Sxy - α * Sx - β * Sxx = 0 := by
  subst hα
  subst hβ
  field_simp
  ring

/-- `lstsq2` returns a least-squares solution: its loss is minimal among all
intercept/slope pairs, in both the full-rank and the rank-deficient branch. -/
theorem lstsq2_minimizes (pts : List (K × K)) (hn : 0 < pts.length) (a b : K) :
    olsLoss pts (lstsq2 pts).1 (lstsq2 pts).2 ≤ olsLoss pts a b := by
  have hn0 : (0 : K) < (pts.length : K) := by exact_mod_cast hn
  have hne : ((pts.length : K)) ≠ 0 := ne_of_gt hn0
  have key : ∀ c d : K,
      (pts.map (fun p => p.2 - (c + d * p.1))).sum = 0 →
      (pts.map (fun p => (p.2 - (c + d * p.1)) * p.1)).sum = 0 →
      olsLoss pts c d ≤ olsLoss pts a b := by
    intro c d h1 h2
    have hdec := olsLoss_decomp pts a b c d
    have hq : 0 ≤ (pts.map (fun p => ((c - a) + (d - b) * p.1) ^ 2)).sum :=
      sum_map_sq_nonneg pts (fun p => (c - a) + (d - b) * p.1)
    rw [h1, h2] at hdec
    linarith [hdec, hq]
  by_cases hd : (pts.length : K) * (pts.map (fun p => p.1 * p.1)).sum -
      (pts.map Prod.fst).sum * (pts.map Prod.fst).sum = 0
  · have hls : lstsq2 pts =
        ((pts.map Prod.snd).sum / (pts.length : K) /
          (1 + (pts.map Prod.fst).sum / (pts.length : K) * ((pts.map Prod.fst).sum / (pts.length : K))),
         (pts.map Prod.snd).sum / (pts.length : K) * ((pts.map Prod.fst).sum / (pts.length : K)) /
          (1 + (pts.map Prod.fst).sum / (pts.length : K) * ((pts.map Prod.fst).sum / (pts.length : K)))) := by
      simp only [lstsq2]
      rw [if_pos hd]
    have hall : ∀ p ∈ pts, p.1 = (pts.map Prod.fst).sum / (pts.length : K) :=
      all_x_eq_of_deficient pts hn hd
    have h1 : (pts.map (fun p => p.2 - ((lstsq2 pts).1 + (lstsq2 pts).2 * p.1))).sum = 0 := by
      rw [sum_resid]
      exact deg_norm1 _ _ _ _ _ hne (by rw [hls]) (by rw [hls])
    have h2 : (pts.map (fun p => (p.2 - ((lstsq2 pts).1 + (lstsq2 pts).2 * p.1)) * p.1)).sum = 0 := by
      rw [sum_residx]
      exact deg_norm2 _ _ _ _ _ _ _ hne (by rw [hls]) (by rw [hls])
        (sum_xy_all_eq pts _ hall) (sum_xx_all_eq pts _ hall)
    exact key _ _ h1 h2
  · have hls : lstsq2 pts =
        (((pts.map Prod.snd).sum -
            ((pts.length : K) * (pts.map (fun p => p.1 * p.2)).sum -
              (pts.map Prod.fst).sum * (pts.map Prod.snd).sum) /
              ((pts.length : K) * (pts.map (fun p => p.1 * p.1)).sum -
                (pts.map Prod.fst).sum * (pts.map Prod.fst).sum) * (pts.map Prod.fst).sum) /
          (pts.length : K),
         ((pts.length : K) * (pts.map (fun p => p.1 * p.2)).sum -
            (pts.map Prod.fst).sum * (pts.map Prod.snd).sum) /
          ((pts.length : K) * (pts.map (fun p => p.1 * p.1)).sum -
            (pts.map Prod.fst).sum * (pts.map Prod.fst).sum)) := by
      simp only [lstsq2]
      rw [if_neg hd]
    have h1 : (pts.map (fun p => p.2 - ((lstsq2 pts).1 + (lstsq2 pts).2 * p.1))).sum = 0 := by
      rw [sum_resid]
      exact ndeg_norm1 _ _ _ _ _ _ _ hne (by rw [hls]) (by rw [hls])
    have h2 : (pts.map (fun p => (p.2 - ((lstsq2 pts).1 + (lstsq2 pts).2 * p.1)) * p.1)).sum = 0 := by
      rw [sum_residx]
      exact ndeg_norm2 _ _ _ _ _ _ _ hne hd (by rw [hls]) (by rw [hls])
    exact key _ _ h1 h2

end OLS

/-- Modelled from the spec: `np.random.default_rng(seed)` is an explicitly
seeded deterministic generator consulting no process-wide state.  The PCG64
bit stream itself is not part of the repository and is modelled by a linear
congruential generator with the same interface and range guarantee. -/
def lcgNext (s : ℕ) : ℕ :=
  (6364136223846793005 * s + 1442695040888963407) % 18446744073709551616

def rngIntegersGo (bound : ℕ) : ℕ → ℕ → List ℕ
  | _, 0 => []
  | state, Nat.succ k => lcgNext state % bound :: rngIntegersGo bound (lcgNext state) k

/-- Modelled from the spec: `rng.integers(0, bound, size)` — `size` draws
in `[0, bound)`, a pure function of the seed. -/
def rngIntegers (seed bound size : ℕ) : List ℕ :=
  rngIntegersGo bound seed size

theorem length_rngIntegersGo (bound : ℕ) :
    ∀ (state size : ℕ), (rngIntegersGo bound state size).length = size := by
  intro state size
  induction size generalizing state with
  | zero => rfl
  | succ k ih => simp [rngIntegersGo, ih]

theorem mem_rngIntegersGo (bound : ℕ) (hb : 0 < bound) :
    ∀ (state size : ℕ), ∀ st ∈ rngIntegersGo bound state size, st < bound := by
  intro state size
  induction size generalizing state with
  | zero => simp [rngIntegersGo]
  | succ k ih =>
    intro st hst
    simp only [rngIntegersGo] at hst
    rcases List.mem_cons.mp hst with h1 | h
    · have hlt : lcgNext state % bound < bound := Nat.mod_lt _ hb
      omega
    · exact ih _ st h

section Percentile

variable {K : Type} [LinearOrderedField K] [FloorRing K]

def insertK (a : K) : List K → List K
  | [] => [a]
  | b :: t => if a ≤ b then a :: b :: t else b :: insertK a t

/-- Ascending sort, as `np.percentile` applies to its input. -/
def sortK : List K → List K
  | [] => []
  | a :: t => insertK a (sortK t)

/-- Linear-interpolation percentile of an already sorted list at
`q` percent, the default `np.percentile` interpolation. -/
def percAt (l : List K) (q : K) : K :=
  let h := q / 100 * ((l.length : K) - 1)
  let j := (Int.floor h).toNat
  let a := l.getD j 0
  let b := l.getD (j + 1) a
  a + (h - ((Int.floor h : ℤ) : K)) * (b - a)

/-- `np.nanpercentile` on a NaN-free list: sort, then interpolate. -/
def nanpercentile (l : List K) (q : K) : K :=
  percAt (sortK l) q

/-- `bootstrap_car_ci` of `core/stats.py`: return (NaN, NaN) when the
history is shorter than `window_len + 10`; otherwise draw `n_iter` start
positions in `[0, len - window_len)` from the seeded generator, sum each
window of `window_len` consecutive returns, and return the 2.5th and 97.5th
percentiles of those sums. -/
def bootstrap_car_ci (returns : Series K) (window_len n_iter : ℕ)
    (random_state : ℕ := 42) : Option K × Option K :=
  if returns.length < window_len + 10 then (none, none)
  else
    let starts := rngIntegers random_state (returns.length - window_len) n_iter
    let sums := starts.map (fun s => (definedVals ((returns.drop s).take window_len)).sum)
    (some (nanpercentile sums (5 / 2)), some (nanpercentile sums (195 / 2)))

/-- The resampling estimator as a state-passing computation over an explicit
process-wide RNG state: the code builds a fresh local generator from the
seed, so the embedding neither reads nor writes the global state. -/
def bootstrap_car_ci_proc (globalRng : ℕ) (returns : Series K)
    (window_len n_iter random_state : ℕ) : (Option K × Option K) × ℕ :=
  (bootstrap_car_ci returns window_len n_iter random_state, globalRng)

end Percentile

/-- C7 — for fixed inputs and seed the resampling estimator is bit-identical
across invocations and independent of the process-wide random state: the
result does not depend on the global state, a sequenced second call returns
the same pair, and the global state is left untouched. -/
theorem bootstrap_deterministic_spec {K : Type} [LinearOrderedField K] [FloorRing K]
    (g1 g2 : ℕ) (returns : Series K) (window_len n_iter random_state : ℕ) :
    (bootstrap_car_ci_proc g1 returns window_len n_iter random_state).1 =
      (bootstrap_car_ci_proc g2 returns window_len n_iter random_state).1 ∧
    (bootstrap_car_ci_proc
        ((bootstrap_car_ci_proc g1 returns window_len n_iter random_state).2)
        returns window_len n_iter random_state).1 =
      (bootstrap_car_ci_proc g1 returns window_len n_iter random_state).1 ∧
    (bootstrap_car_ci_proc g1 returns window_len n_iter random_state).2 = g1 :=
  ⟨rfl, rfl, rfl⟩

/-- C2 (amended) — the resampling estimator returns (NaN, NaN) exactly when
the history length is strictly less than `window_len + 10`; at length
`window_len + 10` or more it draws `n_iter` start positions in
`[0, len - window_len)` and returns the 2.5th/97.5th percentiles of the
window sums. -/
theorem bootstrap_car_ci_spec {K : Type} [LinearOrderedField K] [FloorRing K]
    (returns : Series K) (window_len n_iter random_state : ℕ) :
    (returns.length < window_len + 10 →
      bootstrap_car_ci returns window_len n_iter random_state = (none, none)) ∧
    (window_len + 10 ≤ returns.length →
      ∃ starts : List ℕ, starts.length = n_iter ∧
        (∀ st ∈ starts, st < returns.length - window_len) ∧
        bootstrap_car_ci returns window_len n_iter random_state =
          (some (nanpercentile
            (starts.map (fun s => (definedVals ((returns.drop s).take window_len)).sum)) (5 / 2)),
           some (nanpercentile
            (starts.map (fun s => (definedVals ((returns.drop s).take window_len)).sum)) (195 / 2)))) := by
  constructor
  · intro h
    rw [bootstrap_car_ci, if_pos h]
  · intro h
    refine ⟨rngIntegers random_state (returns.length - window_len) n_iter,
      length_rngIntegersGo _ _ _,
      mem_rngIntegersGo _ (by omega) _ _, ?_⟩
    rw [bootstrap_car_ci, if_neg (by omega)]

set_option maxRecDepth 4000 in
/-- Witness for C2's amended theorem: history of length `1 + 10`, window 1. -/
theorem bootstrap_car_ci_spec_witness :
    (1 + 10 ≤ ([(0, some 1), (1, some 1), (2, some 1), (3, some 1), (4, some 1), (5, some 1),
      (6, some 1), (7, some 1), (8, some 1), (9, some 1), (10, some 1)] : Series ℚ).length) ∧
    (∃ starts : List ℕ, starts.length = 2 ∧
      (∀ st ∈ starts, st < ([(0, some 1), (1, some 1), (2, some 1), (3, some 1), (4, some 1), (5, some 1),
        (6, some 1), (7, some 1), (8, some 1), (9, some 1), (10, some 1)] : Series ℚ).length - 1) ∧
      bootstrap_car_ci ([(0, some 1), (1, some 1), (2, some 1), (3, some 1), (4, some 1), (5, some 1),
        (6, some 1), (7, some 1), (8, some 1), (9, some 1), (10, some 1)] : Series ℚ) 1 2 42 =
        (some (nanpercentile
          (starts.map (fun s => (definedVals ((([(0, some 1), (1, some 1), (2, some 1), (3, some 1), (4, some 1), (5, some 1),
            (6, some 1), (7, some 1), (8, some 1), (9, some 1), (10, some 1)] : Series ℚ).drop s).take 1)).sum)) (5 / 2)),
         some (nanpercentile
          (starts.map (fun s => (definedVals ((([(0, some 1), (1, some 1), (2, some 1), (3, some 1), (4, some 1), (5, some 1),
            (6, some 1), (7, some 1), (8, some 1), (9, some 1), (10, some 1)] : Series ℚ).drop s).take 1)).sum)) (195 / 2)))) :=
  ⟨by with_unfolding_all decide,
   (bootstrap_car_ci_spec ([(0, some 1), (1, some 1), (2, some 1), (3, some 1), (4, some 1), (5, some 1),
      (6, some 1), (7, some 1), (8, some 1), (9, some 1), (10, some 1)] : Series ℚ) 1 2 42).2
     (by with_unfolding_all decide)⟩

set_option maxRecDepth 4000 in
/-- C2 counterexample stated below: the claim as stated demands (NaN, NaN)
at history length exactly `window_len + 10`, but the code's guard is a
strict `<`: it resamples and returns defined percentiles. -/
theorem bootstrap_guard_counterexample :
    (([(0, some 1), (1, some 1), (2, some 1), (3, some 1), (4, some 1), (5, some 1),
      (6, some 1), (7, some 1), (8, some 1), (9, some 1), (10, some 1)] : Series ℚ).length = 1 + 10) ∧
    bootstrap_car_ci ([(0, some 1), (1, some 1), (2, some 1), (3, some 1), (4, some 1), (5, some 1),
      (6, some 1), (7, some 1), (8, some 1), (9, some 1), (10, some 1)] : Series ℚ) 1 2 42 ≠
      ((none, none) : Option ℚ × Option ℚ) :=
  ⟨by with_unfolding_all decide, by with_unfolding_all decide⟩

/-- C6 — the regression estimator aligns the two series on their shared
index, drops rows missing in either, returns (0, 0) when fewer than 10
paired observations remain, and otherwise returns an ordinary-least-squares
fit of `y = alpha + beta * x`: its squared-residual loss over the paired
observations is minimal among all intercept/slope pairs. -/
theorem ols_alpha_beta_spec {K : Type} [LinearOrderedField K] (x y : Series K) :
    ((alignDropna x y).length < 10 → ols_alpha_beta x y = (0, 0)) ∧
    (10 ≤ (alignDropna x y).length → ∀ a b : K,
      olsLoss (alignDropna x y) (ols_alpha_beta x y).1 (ols_alpha_beta x y).2 ≤
        olsLoss (alignDropna x y) a b) := by
  constructor
  · intro h
    rw [ols_alpha_beta, if_pos h]
  · intro h a b
    rw [ols_alpha_beta, if_neg (by omega)]
    exact lstsq2_minimizes (alignDropna x y) (by omega) a b

/-- Witness for C6: ten exact observations of `y = 1 + 2x`; the fitted loss
is bounded by the loss of an arbitrary competing line. -/
theorem ols_alpha_beta_spec_witness :
    (10 ≤ (alignDropna
      ([(0, some 0), (1, some 1), (2, some 2), (3, some 3), (4, some 4),
        (5, some 5), (6, some 6), (7, some 7), (8, some 8), (9, some 9)] : Series ℚ)
      ([(0, some 1), (1, some 3), (2, some 5), (3, some 7), (4, some 9),
        (5, some 11), (6, some 13), (7, some 15), (8, some 17), (9, some 19)] : Series ℚ)).length) ∧
    olsLoss (alignDropna
      ([(0, some 0), (1, some 1), (2, some 2), (3, some 3), (4, some 4),
        (5, some 5), (6, some 6), (7, some 7), (8, some 8), (9, some 9)] : Series ℚ)
      ([(0, some 1), (1, some 3), (2, some 5), (3, some 7), (4, some 9),
        (5, some 11), (6, some 13), (7, some 15), (8, some 17), (9, some 19)] : Series ℚ))
      (ols_alpha_beta
      ([(0, some 0), (1, some 1), (2, some 2), (3, some 3), (4, some 4),
        (5, some 5), (6, some 6), (7, some 7), (8, some 8), (9, some 9)] : Series ℚ)
      ([(0, some 1), (1, some 3), (2, some 5), (3, some 7), (4, some 9),
        (5, some 11), (6, some 13), (7, some 15), (8, some 17), (9, some 19)] : Series ℚ)).1
      (ols_alpha_beta
      ([(0, some 0), (1, some 1), (2, some 2), (3, some 3), (4, some 4),
        (5, some 5), (6, some 6), (7, some 7), (8, some 8), (9, some 9)] : Series ℚ)
      ([(0, some 1), (1, some 3), (2, some 5), (3, some 7), (4, some 9),
        (5, some 11), (6, some 13), (7, some 15), (8, some 17), (9, some 19)] : Series ℚ)).2 ≤
    olsLoss (alignDropna
      ([(0, some 0), (1, some 1), (2, some 2), (3, some 3), (4, some 4),
        (5, some 5), (6, some 6), (7, some 7), (8, some 8), (9, some 9)] : Series ℚ)
      ([(0, some 1), (1, some 3), (2, some 5), (3, some 7), (4, some 9),
        (5, some 11), (6, some 13), (7, some 15), (8, some 17), (9, some 19)] : Series ℚ)) 3 7 :=
  ⟨by with_unfolding_all decide,
   (ols_alpha_beta_spec
      ([(0, some 0), (1, some 1), (2, some 2), (3, some 3), (4, some 4),
        (5, some 5), (6, some 6), (7, some 7), (8, some 8), (9, some 9)] : Series ℚ)
      ([(0, some 1), (1, some 3), (2, some 5), (3, some 7), (4, some 9),
        (5, some 11), (6, some 13), (7, some 15), (8, some 17), (9, some 19)] : Series ℚ)).2
     (by with_unfolding_all decide) 3 7⟩

/-- C4 (amended) — the CAR of the single-event estimator is the pandas
`skipna` running cumulative sum of the AR series: a missing AR hour yields a
missing CAR at that hour only, and every non-missing hour carries the sum of
the non-missing AR values up to and including it. -/
theorem car_cumsum_skipna_spec {K : Type} [LinearOrderedField K]
    (target : Series K) (bench : Option (Series K)) (t0 : ℤ) (w : Windows) (i : ℕ)
    (h : i < (market_model_ar target bench t0 w).1.length) :
    (cumsum (market_model_ar target bench t0 w).1).length =
      (market_model_ar target bench t0 w).1.length ∧
    (cumsum (market_model_ar target bench t0 w).1).getD i (0, none) =
      (((market_model_ar target bench t0 w).1.getD i (0, none)).1,
       ((market_model_ar target bench t0 w).1.getD i (0, none)).2.map
         (fun _ => (definedVals ((market_model_ar target bench t0 w).1.take (i + 1))).sum)) :=
  ⟨length_cumsumGo 0 _, cumsum_getD _ i h⟩

/-- Witness for C4's amended theorem at a concrete sparse return series. -/
theorem car_cumsum_skipna_spec_witness :
    (2 < (market_model_ar (K := ℚ)
        [(7, some 1), (8, some 1), (9, some 1), (10, some 2), (12, some 3)]
        none 10 ⟨(-3, -1), (0, 2)⟩).1.length) ∧
    ((cumsum (market_model_ar (K := ℚ)
        [(7, some 1), (8, some 1), (9, some 1), (10, some 2), (12, some 3)]
        none 10 ⟨(-3, -1), (0, 2)⟩).1).length =
      (market_model_ar (K := ℚ)
        [(7, some 1), (8, some 1), (9, some 1), (10, some 2), (12, some 3)]
        none 10 ⟨(-3, -1), (0, 2)⟩).1.length ∧
    (cumsum (market_model_ar (K := ℚ)
        [(7, some 1), (8, some 1), (9, some 1), (10, some 2), (12, some 3)]
        none 10 ⟨(-3, -1), (0, 2)⟩).1).getD 2 (0, none) =
      (((market_model_ar (K := ℚ)
        [(7, some 1), (8, some 1), (9, some 1), (10, some 2), (12, some 3)]
        none 10 ⟨(-3, -1), (0, 2)⟩).1.getD 2 (0, none)).1,
       ((market_model_ar (K := ℚ)
        [(7, some 1), (8, some 1), (9, some 1), (10, some 2), (12, some 3)]
        none 10 ⟨(-3, -1), (0, 2)⟩).1.getD 2 (0, none)).2.map
         (fun _ => (definedVals ((market_model_ar (K := ℚ)
        [(7, some 1), (8, some 1), (9, some 1), (10, some 2), (12, some 3)]
        none 10 ⟨(-3, -1), (0, 2)⟩).1.take (2 + 1))).sum))) :=
  ⟨by with_unfolding_all decide,
   car_cumsum_skipna_spec
     [(7, some 1), (8, some 1), (9, some 1), (10, some 2), (12, some 3)]
     none 10 ⟨(-3, -1), (0, 2)⟩ 2 (by with_unfolding_all decide)⟩

/-- C4 counterexample — the claim as stated says a missing AR hour makes the
CAR missing from that point onward; at this concrete input hour 11 of the AR
is missing yet the CAR at hour 12 is defined (pandas `cumsum` skips NaN). -/
theorem car_nan_propagation_counterexample :
    (market_model_ar (K := ℚ)
        [(7, some 1), (8, some 1), (9, some 1), (10, some 2), (12, some 3)]
        none 10 ⟨(-3, -1), (0, 2)⟩).1.getD 1 (0, none) = (11, none) ∧
    (cumsum (market_model_ar (K := ℚ)
        [(7, some 1), (8, some 1), (9, some 1), (10, some 2), (12, some 3)]
        none 10 ⟨(-3, -1), (0, 2)⟩).1).getD 2 (0, none) = (12, some 3) :=
  ⟨by with_unfolding_all decide, by with_unfolding_all decide⟩

/-- C9 — with no benchmark configured the single-event estimator records
beta = 0, alpha = the mean of the non-missing estimation-window returns
(0 when none exist), and the abnormal return is the event-window series
minus that mean, pointwise, missing hours staying missing. -/
theorem market_model_ar_mean_adjusted_spec {K : Type} [LinearOrderedField K]
    (target : Series K) (t0 : ℤ) (w : Windows) :
    (market_model_ar target none t0 w).2.2 = 0 ∧
    (market_model_ar target none t0 w).2.1 =
      (if 0 < (definedVals (slice_window target t0 w.estimation)).length
       then (definedVals (slice_window target t0 w.estimation)).sum /
            ((definedVals (slice_window target t0 w.estimation)).length : K)
       else 0) ∧
    (market_model_ar target none t0 w).1 =
      (slice_window target t0 w.event).map
        (fun p => (p.1, p.2.map (fun v =>
          v - (market_model_ar target none t0 w).2.1))) := by
  refine ⟨rfl, ?_, rfl⟩
  show (if 0 < (dropnaS (slice_window target t0 w.estimation)).length
        then meanDefined (dropnaS (slice_window target t0 w.estimation)) else 0) = _
  rw [length_dropnaS, meanDefined, definedVals_dropnaS]

/-- Witness for C9 at a concrete series with a gap in the event window. -/
theorem market_model_ar_mean_adjusted_spec_witness :
    (market_model_ar (K := ℚ)
        [(7, some 1), (8, some 3), (10, some 2), (12, some 5)]
        none 10 ⟨(-3, -1), (0, 2)⟩).2.2 = 0 ∧
    (market_model_ar (K := ℚ)
        [(7, some 1), (8, some 3), (10, some 2), (12, some 5)]
        none 10 ⟨(-3, -1), (0, 2)⟩).2.1 =
      (if 0 < (definedVals (slice_window ([(7, some 1), (8, some 3), (10, some 2), (12, some 5)] : Series ℚ) 10 (⟨(-3, -1), (0, 2)⟩ : Windows).estimation)).length
       then (definedVals (slice_window ([(7, some 1), (8, some 3), (10, some 2), (12, some 5)] : Series ℚ) 10 (⟨(-3, -1), (0, 2)⟩ : Windows).estimation)).sum /
            ((definedVals (slice_window ([(7, some 1), (8, some 3), (10, some 2), (12, some 5)] : Series ℚ) 10 (⟨(-3, -1), (0, 2)⟩ : Windows).estimation)).length : ℚ)
       else 0) ∧
    (market_model_ar (K := ℚ)
        [(7, some 1), (8, some 3), (10, some 2), (12, some 5)]
        none 10 ⟨(-3, -1), (0, 2)⟩).1 =
      (slice_window ([(7, some 1), (8, some 3), (10, some 2), (12, some 5)] : Series ℚ) 10 (⟨(-3, -1), (0, 2)⟩ : Windows).event).map
        (fun p => (p.1, p.2.map (fun v =>
          v - (market_model_ar (K := ℚ)
        [(7, some 1), (8, some 3), (10, some 2), (12, some 5)]
        none 10 ⟨(-3, -1), (0, 2)⟩).2.1))) :=
  market_model_ar_mean_adjusted_spec
    [(7, some 1), (8, some 3), (10, some 2), (12, some 5)] 10 ⟨(-3, -1), (0, 2)⟩

/-- IEEE-style extended float values as `np.log` produces them: NaN,
signed infinities, and finite reals. -/
inductive EF where
  | nan : EF
  | pinf : EF
  | ninf : EF
  | fin : ℝ → EF

def EF.isNan : EF → Bool
  | .nan => true
  | _ => false

/-- IEEE subtraction on extended floats. -/
noncomputable def EF.sub : EF → EF → EF
  | .nan, _ => .nan
  | _, .nan => .nan
  | .pinf, .pinf => .nan
  | .pinf, _ => .pinf
  | .ninf, .ninf => .nan
  | .ninf, _ => .ninf
  | .fin _, .pinf => .ninf
  | .fin _, .ninf => .pinf
  | .fin a, .fin b => .fin (a - b)

/-- `np.log` of a float price: NaN for negative input, -inf for zero,
the real natural logarithm for positive input.  No exception is raised. -/
noncomputable def nlog (q : ℚ) : EF :=
  if q < 0 then .nan else if q = 0 then .ninf else .fin (Real.log (q : ℝ))

/-- `.diff()` after the first entry: each value minus its predecessor. -/
noncomputable def diffEFGo : (ℤ × EF) → List (ℤ × EF) → List (ℤ × EF)
  | _, [] => []
  | prev, q :: rest => (q.1, q.2.sub prev.2) :: diffEFGo q rest

/-- `.diff()`: the first entry is NaN, later entries subtract the
predecessor. -/
noncomputable def diffEF : List (ℤ × EF) → List (ℤ × EF)
  | [] => []
  | p :: rest => (p.1, EF.nan) :: diffEFGo p rest

/-- `.dropna()` on float rows: remove the NaN rows (infinities stay). -/
noncomputable def dropnaEF (l : List (ℤ × EF)) : List (ℤ × EF) :=
  l.filter (fun p => !p.2.isNan)

/-- `to_returns` of `core/data.py`: `np.log(prices).diff().dropna()`. -/
noncomputable def to_returns (prices : List (ℤ × ℚ)) : List (ℤ × EF) :=
  dropnaEF (diffEF (prices.map (fun p => (p.1, nlog p.2))))

theorem diffEFGo_pos (rest : List (ℤ × ℚ)) :
    ∀ (prev : ℤ × ℚ), 0 < prev.2 → (∀ q ∈ rest, 0 < q.2) →
    dropnaEF (diffEFGo (prev.1, nlog prev.2) (rest.map (fun p => (p.1, nlog p.2)))) =
      ((prev :: rest).zip rest).map
        (fun pq => (pq.2.1, EF.fin (Real.log (pq.2.2 : ℝ) - Real.log (pq.1.2 : ℝ)))) := by
  induction rest with
  | nil =>
    intro prev hp hall
    rfl
  | cons q rest2 ih =>
    intro prev hp hall
    have hq : 0 < q.2 := hall q (List.mem_cons_self q rest2)
    have hprev : nlog prev.2 = EF.fin (Real.log (prev.2 : ℝ)) := by
      rw [nlog, if_neg (by exact not_lt.mpr hp.le), if_neg (by exact ne_of_gt hp)]
    have hqlog : nlog q.2 = EF.fin (Real.log (q.2 : ℝ)) := by
      rw [nlog, if_neg (by exact not_lt.mpr hq.le), if_neg (by exact ne_of_gt hq)]
    simp only [List.map_cons, diffEFGo, hprev, hqlog]
    have hrec := ih q hq (fun r hr => hall r (List.mem_cons_of_mem q hr))
    rw [hqlog] at hrec
    simp only [List.zip_cons_cons, List.map_cons]
    rw [show (EF.fin (Real.log (q.2 : ℝ))).sub (EF.fin (Real.log (prev.2 : ℝ))) =
        EF.fin (Real.log (q.2 : ℝ) - Real.log (prev.2 : ℝ)) from rfl]
    rw [show dropnaEF ((q.1, EF.fin (Real.log (q.2 : ℝ) - Real.log (prev.2 : ℝ))) ::
        diffEFGo (q.1, EF.fin (Real.log (q.2 : ℝ))) (rest2.map (fun p => (p.1, nlog p.2)))) =
        (q.1, EF.fin (Real.log (q.2 : ℝ) - Real.log (prev.2 : ℝ))) ::
        dropnaEF (diffEFGo (q.1, EF.fin (Real.log (q.2 : ℝ))) (rest2.map (fun p => (p.1, nlog p.2)))) from rfl]
    rw [hrec]

/-- C3 (amended) — the return transform never raises and never emits a NaN
row: the undefined first-difference entries (the first entry, and entries
adjacent to a negative price, whose log is NaN) are dropped from the output
rather than marked; for a positive-valued price series the output is
exactly the first difference of the natural logarithm of the series with
the first (undefined) entry dropped. -/
theorem to_returns_spec :
    (∀ (prices : List (ℤ × ℚ)), ∀ p ∈ to_returns prices, p.2.isNan = false) ∧
    (∀ (prices : List (ℤ × ℚ)), (∀ p ∈ prices, 0 < p.2) →
      to_returns prices = (prices.zip prices.tail).map
        (fun pq => (pq.2.1, EF.fin (Real.log (pq.2.2 : ℝ) - Real.log (pq.1.2 : ℝ))))) := by
  constructor
  · intro prices p hp
    have := List.mem_filter.mp hp
    simpa using this.2
  · intro prices hpos
    cases prices with
    | nil => rfl
    | cons p rest =>
      have hp : 0 < p.2 := hpos p (List.mem_cons_self p rest)
      have hall : ∀ q ∈ rest, 0 < q.2 := fun q hq => hpos q (List.mem_cons_of_mem p hq)
      have hhead : to_returns (p :: rest) =
          dropnaEF (diffEFGo (p.1, nlog p.2) (rest.map (fun r => (r.1, nlog r.2)))) := rfl
      rw [hhead]
      have := diffEFGo_pos rest p hp hall
      rw [this]
      rfl

/-- Witness for C3's amended theorem at the positive price series
(hour 0, price 1), (hour 1, price 2). -/
theorem to_returns_spec_witness :
    (∀ p ∈ ([(0, 1), (1, 2)] : List (ℤ × ℚ)), 0 < p.2) ∧
    to_returns ([(0, 1), (1, 2)] : List (ℤ × ℚ)) =
      ((([(0, 1), (1, 2)] : List (ℤ × ℚ)).zip ([(0, 1), (1, 2)] : List (ℤ × ℚ)).tail).map
        (fun pq => (pq.2.1, EF.fin (Real.log (pq.2.2 : ℝ) - Real.log (pq.1.2 : ℝ))))) :=
  ⟨by with_unfolding_all decide,
   to_returns_spec.2 ([(0, 1), (1, 2)] : List (ℤ × ℚ)) (by with_unfolding_all decide)⟩

/-- C3 counterexample — the claim as stated says non-positive prices leave
a NaN marker at the affected output positions; at the concrete series
(1, -1, 1) every first-difference entry is NaN and the output is empty:
the affected positions are omitted, not marked. -/
theorem to_returns_nan_counterexample :
    to_returns ([(0, 1), (1, -1), (2, 1)] : List (ℤ × ℚ)) = [] := by
  have h1 : nlog (1 : ℚ) = EF.fin (Real.log ((1 : ℚ) : ℝ)) := by
    rw [nlog, if_neg (by norm_num), if_neg (by norm_num)]
  have h2 : nlog (-1 : ℚ) = EF.nan := by
    rw [nlog, if_pos (by norm_num)]
  show dropnaEF (diffEF (([(0, 1), (1, -1), (2, 1)] : List (ℤ × ℚ)).map (fun p => (p.1, nlog p.2)))) = []
  simp only [List.map_cons, List.map_nil, diffEF, diffEFGo, h1, h2]
  rfl

/-- Bridge from extended floats to the missing-value domain of the series
pipeline: finite values carry over, NaN becomes missing.  Infinite values
(produced only by a zero close price) are also mapped to missing; the
claims settled through `run_event_study` never inspect return values. -/
noncomputable def efToOpt : EF → Option ℝ
  | .fin x => some x
  | _ => none

/-- The return series as `run_event_study` builds it: `to_returns` of the
close prices, viewed in the missing-value domain. -/
noncomputable def to_returnsRun (prices : List (ℤ × ℚ)) : Series ℝ :=
  (to_returns prices).map (fun p => (p.1, efToOpt p.2))

/-- A tidy price table: its column names, and one row per observation
carrying (symbol, UTC hour, close).  Only the close column's values are
consumed by the core; the other required columns matter by presence. -/
structure PriceFrame where
  cols : List String
  rows : List (String × ℤ × ℚ)

/-- One event record; the aggregator loop reads event_id, ts_utc, symbol. -/
structure EventRow where
  event_id : String
  ts_utc : ℤ
  symbol : String

/-- Per-event output of the aggregator (`EventResult` dataclass). -/
structure EventResult where
  event_id : String
  symbol : String
  t0 : ℤ
  ar : Series ℝ
  car : Series ℝ
  alpha : ℝ
  beta : ℝ
  car_ci : Option ℝ × Option ℝ

/-- Aggregate output of the aggregator (`AggregateResult` dataclass). -/
structure AggregateResult where
  mean_ar : Series ℝ
  mean_car : Series ℝ
  car_ci : Option ℝ × Option ℝ
  per_event : List EventResult

/-- The close-price series of a frame, in row order. -/
def closes (df : PriceFrame) : List (ℤ × ℚ) :=
  df.rows.map (fun r => (r.2.1, r.2.2))

/-- `ensure_symbol_frame` of `core/data.py`: require a symbol column,
filter the rows to one symbol, require the OHLC columns. -/
def ensure_symbol_frame (df : PriceFrame) (symbol : String) : Except String PriceFrame :=
  if "symbol" ∈ df.cols then
    let sub : PriceFrame := ⟨df.cols, df.rows.filter (fun r => r.1 == symbol)⟩
    if (["open", "high", "low", "close"].filter (fun c => !(sub.cols.contains c))).isEmpty then
      .ok sub
    else .error ("Missing columns for " ++ symbol)
  else .error ("Input prices DataFrame must have a symbol column.")

/-- The benchmark-selection condition of `run_event_study`:
`cfg.benchmark and bench_prices is not None and symbol != cfg.benchmark`
(a `None` or empty benchmark name is falsy). -/
def benchSelected (cfg : ModelCfg) (bench_prices : Option PriceFrame) (symbol : String) : Bool :=
  match cfg.benchmark, bench_prices with
  | some b, some _ => !(b == "") && !(symbol == b)
  | _, _ => false

/-- The benchmark return series of `run_event_study`: built only when the
benchmark is selected, else `None`; validates the benchmark frame. -/
noncomputable def benchRet (cfg : ModelCfg) (bench_prices : Option PriceFrame)
    (symbol : String) : Except String (Option (Series ℝ)) :=
  match cfg.benchmark, bench_prices with
  | some b, some bp =>
    if !(b == "") && !(symbol == b) then
      match ensure_symbol_frame bp b with
      | .error e => .error e
      | .ok bdf => .ok (some (to_returnsRun (closes bdf)))
    else .ok none
  | _, _ => .ok none

/-- The per-event body of the aggregator loop: single-event estimator, CAR
as the cumulative sum of the AR, and the optional bootstrap interval under
the guard `full_len > 3 and len(est_series) > full_len + 10`. -/
noncomputable def perEventResult (sym_ret : Series ℝ) (bench_ret : Option (Series ℝ))
    (cfg : ModelCfg) (w : Windows) (symbol : String) (r : EventRow) : EventResult :=
  let arab := market_model_ar sym_ret bench_ret r.ts_utc w
  let car := cumsum arab.1
  let ci :=
    if cfg.use_bootstrap then
      let full_len := (dropnaS arab.1).length
      let est_series := dropnaS (slice_window sym_ret r.ts_utc w.estimation)
      if 3 < full_len ∧ full_len + 10 < est_series.length then
        bootstrap_car_ci est_series full_len cfg.n_boot 42
      else (none, none)
    else (none, none)
  ⟨r.event_id, symbol, r.ts_utc, arab.1, car, arab.2.1, arab.2.2, ci⟩

/-- The terminal CAR of one event:
`e.car.dropna().iloc[-1] if len(e.car.dropna()) else np.nan`. -/
noncomputable def finalCar (e : EventResult) : Option ℝ :=
  if (dropnaS e.car).length ≠ 0 then ((dropnaS e.car).getLast?).bind (fun p => p.2) else none

/-- The aggregate confidence interval of `run_event_study`: the 2.5th and
97.5th percentiles of the defined terminal CARs when at least 5 exist,
else (NaN, NaN). -/
noncomputable def aggregateCI (per_event : List EventResult) : Option ℝ × Option ℝ :=
  let final_cars := (per_event.map finalCar).filterMap id
  if 5 ≤ final_cars.length then
    (some (nanpercentile final_cars (5 / 2)), some (nanpercentile final_cars (195 / 2)))
  else (none, none)

/-- Positional row-wise NaN-skipping mean of the per-event AR columns,
relabelled onto the event-window hours. -/
noncomputable def rowMean (cols : List (Series ℝ)) (w : ℤ × ℤ) : Series ℝ :=
  (List.range (w.2 + 1 - w.1).toNat).map (fun (i : ℕ) =>
    (w.1 + (i : ℤ),
     if (cols.filterMap (fun c => (c.getD i (0, none)).2)).isEmpty then none
     else some ((cols.filterMap (fun c => (c.getD i (0, none)).2)).sum /
       (cols.filterMap (fun c => (c.getD i (0, none)).2)).length)))

/-- `run_event_study` of `core/event_study.py`. -/
noncomputable def run_event_study (prices : PriceFrame) (events : List EventRow)
    (symbol : String) (bench_prices : Option PriceFrame) (cfg : ModelCfg)
    (w : Windows) : Except String AggregateResult :=
  match ensure_symbol_frame prices symbol with
  | .error e => .error e
  | .ok sym_df =>
    let sym_ret := to_returnsRun (closes sym_df)
    match benchRet cfg bench_prices symbol with
    | .error e => .error e
    | .ok bench_ret =>
      let per_event := (events.filter (fun r => r.symbol == symbol)).map
        (perEventResult sym_ret bench_ret cfg w symbol)
      if per_event.isEmpty then .error ("No events for " ++ symbol)
      else
        let mean_ar := rowMean (per_event.map (fun e => e.ar)) w.event
        .ok ⟨mean_ar, cumsum mean_ar, aggregateCI per_event, per_event⟩

/-- Truth of a predicate on the success value of a fallible computation. -/
def onOk {E A : Type} (r : Except E A) (P : A → Prop) : Prop :=
  match r with
  | .ok a => P a
  | .error _ => True

/-- C5 (amended) — the aggregator raises exactly when the price frame fails
symbol-frame validation, or the benchmark branch is taken and its frame
fails validation, or zero events match the target symbol; statistical
insufficiency never raises. -/
theorem run_event_study_error_spec (prices : PriceFrame) (events : List EventRow)
    (symbol : String) (bench_prices : Option PriceFrame) (cfg : ModelCfg) (w : Windows) :
    (∃ msg, run_event_study prices events symbol bench_prices cfg w = .error msg) ↔
      ((∃ e1, ensure_symbol_frame prices symbol = .error e1) ∨
       (∃ e2, benchRet cfg bench_prices symbol = .error e2) ∨
       (events.filter (fun r => r.symbol == symbol)).isEmpty = true) := by
  cases hp : ensure_symbol_frame prices symbol with
  | error e =>
    simp [run_event_study, hp]
  | ok sym_df =>
    cases hb : benchRet cfg bench_prices symbol with
    | error e =>
      simp [run_event_study, hp, hb]
    | ok bret =>
      cases hev : events.filter (fun r => r.symbol == symbol) with
      | nil =>
        simp [run_event_study, hp, hb, hev]
      | cons r rest =>
        simp [run_event_study, hp, hb, hev]

/-- C5 counterexample — a price table without a symbol column together with
an event table holding a matching event: the aggregator raises although the
filtered event set is nonempty, refuting "raises only if zero events
match". -/
theorem run_raises_counterexample :
    (∃ msg, run_event_study ⟨["open", "high", "low", "close"], [("AAA", 0, 1)]⟩
        [⟨"e1", 0, "AAA"⟩] "AAA" none ⟨none, false, 10⟩ ⟨(-3, -1), (0, 2)⟩ = .error msg) ∧
    (([⟨"e1", 0, "AAA"⟩] : List EventRow).filter (fun r => r.symbol == "AAA")).isEmpty = false :=
  ⟨⟨"Input prices DataFrame must have a symbol column.", rfl⟩, rfl⟩

/-- The last non-missing CAR value of an event, when one exists. -/
noncomputable def lastDefinedCar (e : EventResult) : Option ℝ :=
  ((dropnaS e.car).getLast?).bind (fun p => p.2)

theorem finalCar_eq (e : EventResult) : finalCar e = lastDefinedCar e := by
  rw [finalCar, lastDefinedCar]
  by_cases h : (dropnaS e.car).length ≠ 0
  · rw [if_pos h]
  · rw [if_neg h]
    have hnil : dropnaS e.car = [] := List.eq_nil_of_length_eq_zero (by omega)
    rw [hnil]
    rfl

/-- C8 — the aggregate confidence interval of every successful run is
`aggregateCI` of its per-event results, and `aggregateCI` returns the
2.5th/97.5th percentile pair of the defined terminal (last non-missing)
CAR values when at least 5 events have one, and (NaN, NaN) otherwise. -/
theorem aggregate_ci_spec :
    (∀ (prices : PriceFrame) (events : List EventRow) (symbol : String)
      (bench_prices : Option PriceFrame) (cfg : ModelCfg) (w : Windows),
      onOk (run_event_study prices events symbol bench_prices cfg w)
        (fun res => res.car_ci = aggregateCI res.per_event)) ∧
    (∀ per_event : List EventResult,
      aggregateCI per_event =
        (if 5 ≤ (per_event.filterMap lastDefinedCar).length
         then (some (nanpercentile (per_event.filterMap lastDefinedCar) (5 / 2)),
               some (nanpercentile (per_event.filterMap lastDefinedCar) (195 / 2)))
         else (none, none))) := by
  constructor
  · intro prices events symbol bench_prices cfg w
    cases hp : ensure_symbol_frame prices symbol with
    | error e => simp [run_event_study, hp, onOk]
    | ok sym_df =>
      cases hb : benchRet cfg bench_prices symbol with
      | error e => simp [run_event_study, hp, hb, onOk]
      | ok bret =>
        cases hev : events.filter (fun r => r.symbol == symbol) with
        | nil => simp [run_event_study, hp, hb, hev, onOk]
        | cons r rest => simp [run_event_study, hp, hb, hev, onOk]
  · intro per_event
    have hmap : (per_event.map finalCar).filterMap id = per_event.filterMap lastDefinedCar := by
      rw [List.filterMap_map]
      have : (id ∘ finalCar) = lastDefinedCar := funext (fun e => finalCar_eq e)
      rw [this]
    rw [aggregateCI, hmap]

theorem perEventResult_beta_none (sym_ret : Series ℝ) (cfg : ModelCfg) (w : Windows)
    (symbol : String) (r : EventRow) :
    (perEventResult sym_ret none cfg w symbol r).beta = 0 := rfl

theorem perEventResult_cfg_eq (sym_ret : Series ℝ) (bench_ret : Option (Series ℝ))
    (w : Windows) (symbol : String) (c1 c2 : ModelCfg)
    (hu : c1.use_bootstrap = c2.use_bootstrap) (hn : c1.n_boot = c2.n_boot) :
    perEventResult sym_ret bench_ret c1 w symbol = perEventResult sym_ret bench_ret c2 w symbol := by
  obtain ⟨b1, u1, n1⟩ := c1
  obtain ⟨b2, u2, n2⟩ := c2
  simp only at hu hn
  subst hu hn
  funext r
  rfl

theorem benchRet_not_selected (cfg : ModelCfg) (bench_prices : Option PriceFrame)
    (symbol : String) (h : benchSelected cfg bench_prices symbol = false) :
    benchRet cfg bench_prices symbol = .ok none := by
  cases hcb : cfg.benchmark with
  | none =>
    cases bench_prices with
    | none => simp [benchRet, hcb]
    | some bp => simp [benchRet, hcb]
  | some b =>
    cases hbp : bench_prices with
    | none => simp [benchRet, hcb]
    | some bp =>
      have h2 : (!(b == "") && !(symbol == b)) = false := by
        simp only [benchSelected, hcb, hbp] at h
        exact h
      simp [benchRet, hcb, hbp, h2]

/-- C10 — with a falsy benchmark name, absent benchmark prices, or a
benchmark equal to the target symbol, the aggregator silently runs the
mean-adjusted model: its result is identical to a run with no benchmark
configured, no error is raised on account of the benchmark, and every
per-event result of a successful run has beta = 0. -/
theorem run_mean_adjusted_fallback_spec (prices : PriceFrame) (events : List EventRow)
    (symbol : String) (bench_prices : Option PriceFrame) (cfg : ModelCfg) (w : Windows)
    (h : benchSelected cfg bench_prices symbol = false) :
    (run_event_study prices events symbol bench_prices cfg w =
      run_event_study prices events symbol none ⟨none, cfg.use_bootstrap, cfg.n_boot⟩ w) ∧
    (∀ res, run_event_study prices events symbol bench_prices cfg w = .ok res →
      ∀ e ∈ res.per_event, e.beta = 0) := by
  have hbr1 : benchRet cfg bench_prices symbol = .ok none := benchRet_not_selected _ _ _ h
  have hbr2 : benchRet ⟨none, cfg.use_bootstrap, cfg.n_boot⟩ none symbol = .ok none := rfl
  constructor
  · cases hp : ensure_symbol_frame prices symbol with
    | error e => simp [run_event_study, hp]
    | ok sym_df =>
      have hfun2 : perEventResult (to_returnsRun (closes sym_df)) none cfg w symbol =
          perEventResult (to_returnsRun (closes sym_df)) none ⟨none, cfg.use_bootstrap, cfg.n_boot⟩ w symbol :=
        perEventResult_cfg_eq _ _ _ _ _ _ rfl rfl
      simp only [run_event_study, hp, hbr1, hbr2, hfun2]
  · intro res hres e he
    cases hp : ensure_symbol_frame prices symbol with
    | error e2 =>
      rw [run_event_study, hp] at hres
      exact Except.noConfusion hres
    | ok sym_df =>
      rw [run_event_study, hp] at hres
      simp only [hbr1] at hres
      cases hev : events.filter (fun r => r.symbol == symbol) with
      | nil =>
        rw [hev] at hres
        simp at hres
      | cons r rest =>
        rw [hev] at hres
        simp only [List.map_cons, List.isEmpty_cons, Bool.false_eq_true, if_false,
          Except.ok.injEq] at hres
        subst hres
        simp only [List.mem_cons, List.mem_map] at he
        rcases he with rfl | ⟨r2, hr2, rfl⟩
        · exact perEventResult_beta_none _ _ _ _ _
        · exact perEventResult_beta_none _ _ _ _ _

/-- Witness for C10: benchmark prices absent, so the run equals the
benchmark-free run and carries only zero betas. -/
theorem run_mean_adjusted_fallback_spec_witness :
    (benchSelected ⟨some "BTC-USD", false, 10⟩ none "AAA" = false) ∧
    ((run_event_study ⟨["symbol", "open", "high", "low", "close"], [("AAA", 0, 1), ("AAA", 1, 2)]⟩
        [⟨"e1", 1, "AAA"⟩] "AAA" none ⟨some "BTC-USD", false, 10⟩ ⟨(-3, -1), (0, 2)⟩ =
      run_event_study ⟨["symbol", "open", "high", "low", "close"], [("AAA", 0, 1), ("AAA", 1, 2)]⟩
        [⟨"e1", 1, "AAA"⟩] "AAA" none ⟨none, false, 10⟩ ⟨(-3, -1), (0, 2)⟩) ∧
    (∀ res, run_event_study ⟨["symbol", "open", "high", "low", "close"], [("AAA", 0, 1), ("AAA", 1, 2)]⟩
        [⟨"e1", 1, "AAA"⟩] "AAA" none ⟨some "BTC-USD", false, 10⟩ ⟨(-3, -1), (0, 2)⟩ = .ok res →
      ∀ e ∈ res.per_event, e.beta = 0)) :=
  ⟨rfl, run_mean_adjusted_fallback_spec
    ⟨["symbol", "open", "high", "low", "close"], [("AAA", 0, 1), ("AAA", 1, 2)]⟩
    [⟨"e1", 1, "AAA"⟩] "AAA" none ⟨some "BTC-USD", false, 10⟩ ⟨(-3, -1), (0, 2)⟩ rfl⟩

end ES
